import Mathlib

set_option maxHeartbeats 1600000

/-!
Verification of the crossword CSP solver in `src/crossword/generate.py`
(class `CrosswordCreator`).  The solver receives a constraint graph
(variables, overlaps, vocabulary) from the external `Crossword` collaborator
(`crossword.py`, which is not part of the sources), enforces node and arc
consistency on a per-variable domain store, and then runs a backtracking
search.

The embedding is shallow: Python sets of words are modelled as lists (the
list order stands for the set's fixed iteration order in a given run),
`self.domains` is modelled as a function from variables to word lists,
Python dicts used as assignments are modelled as association lists in key
insertion order, and Python-level control effects are modelled explicitly:
`Option` (`none` = the computation did not return normally within the given
fuel) around a `Res` value (`Res.exn` = an uncaught Python exception,
`Res.ok` = a normal return).
-/

namespace Cw

/-- Modelled from the spec: a `Variable` of the Constraint Graph collaborator
(`crossword.py` is not under src/) identifies one word slot: starting row and
column, a two-valued direction, and an integer length; equality is
structural. -/
structure Variable where
  i : Nat
  j : Nat
  down : Bool
  length : Nat
deriving DecidableEq, Repr

/-- Python words are strings; we model a word as its list of characters. -/
abbrev Word := List Char

/-- Shorthand building a `Word` from a string literal. -/
def chars (s : String) : Word := s.toList

/-- Modelled from the spec: the Constraint Graph collaborator (`crossword.py`,
not under src/) exposes the variable list, the vocabulary, and the overlap
map (`vars` models the Python attribute `variables`, a name Lean reserves); `overlaps u v = some (i, j)` means the words of `u` and `v` must agree
at index `i` of `u`'s word and index `j` of `v`'s word, and `none` means the
pair does not overlap (the Python dict holds `None` there). -/
structure Crossword where
  vars : List Variable
  words : List Word
  overlaps : Variable → Variable → Option (Nat × Nat)

/-- The domain store `self.domains`: each variable's current candidate
words.  Python's dict with the crossword's variables as keys is modelled as
a total function; only variables of the crossword are ever consulted. -/
abbrev Domains := Variable → List Word

/-- Result of a Python call: `ok` is a normal return, `exn` models an
uncaught exception propagating out of the call. -/
inductive Res (α : Type) where
  | ok (a : α)
  | exn

/-- Modelled from the spec: `Crossword.neighbors(var)` of the collaborator
returns the variables sharing a cell with `var` (those `u ≠ var` whose
overlap entry `overlaps[u, var]` is not `None`). -/
def neighbors (c : Crossword) (v : Variable) : List Variable :=
  c.vars.filter (fun u => if u = v then false else (c.overlaps u v).isSome)

/-- Initial domain store built by `CrosswordCreator.__init__`: every
variable starts with a copy of the full vocabulary. -/
def initialDomains (c : Crossword) : Domains := fun _ => c.words

/-- Embeds `CrosswordCreator.enforce_node_consistency`: for every variable
of the crossword, remove the words whose length differs from the variable's
length.  (The Python code compares the lengths with `is not`; for the small
integers that occur as crossword word lengths CPython's small-integer
caching makes that coincide with `!=`, which is what we model.) -/
def enforce_node_consistency (c : Crossword) (doms : Domains) : Domains :=
  fun v =>
    if v ∈ c.vars then (doms v).filter (fun w => w.length == v.length)
    else doms v

/-- Embeds `CrosswordCreator.revise`.  The Python code first unpacks
`self.crossword.overlaps[x, y]` into `x_overlap, y_overlap`; when that entry
is `None` the unpacking raises a `TypeError`, modelled here as `none`.  It
then guards the whole revision loop with `if x_overlap:`, which is false
when the first offset is the integer `0`, so such arcs are never revised.
Otherwise it removes from `domains[x]` every word with no matching word in
`domains[y]` and reports whether anything was removed.  Out-of-range
character access (impossible for length-matching words and in-range
offsets) is modelled with a default character. -/
def revise (c : Crossword) (doms : Domains) (x y : Variable) :
    Option (Bool × Domains) :=
  match c.overlaps x y with
  | none => none
  | some (xo, yo) =>
    if xo = 0 then
      some (false, doms)
    else
      let keep := (doms x).filter
        (fun w => (doms y).any (fun u => w.getD xo ' ' == u.getD yo ' '))
      if keep.length = (doms x).length then
        some (false, doms)
      else
        some (true, fun v => if v = x then keep else doms v)

/-- Embeds the `ac3` worklist loop: pop the first arc, revise it, return
`False` as soon as a revision empties the revised domain, otherwise
re-enqueue the arcs `(z, x)` for the other neighbors `z` of `x` whenever a
revision occurred, and return `True` when the queue is empty.  `fuel` bounds
the number of loop iterations (`none` = fuel exhausted); `Res.exn` is the
`TypeError` propagating out of `revise` for an arc with no overlap. -/
def ac3 (c : Crossword) : Nat → List (Variable × Variable) → Domains →
    Option (Res (Bool × Domains))
  | 0, _, _ => none
  | _ + 1, [], doms => some (Res.ok (true, doms))
  | fuel + 1, (x, y) :: rest, doms =>
    match revise c doms x y with
    | none => some Res.exn
    | some (false, doms1) => ac3 c fuel rest doms1
    | some (true, doms1) =>
      if doms1 x = [] then
        some (Res.ok (false, doms1))
      else
        ac3 c fuel
          (rest ++ ((neighbors c x).filter (fun z => decide (z ≠ y))).map
            (fun z => (z, x)))
          doms1

/-- The initial arc list built by `ac3` when called with `arcs=None`:
`[(x, y) for x in self.domains for y in self.crossword.neighbors(x)]`. -/
def initialArcs (c : Crossword) : List (Variable × Variable) :=
  (c.vars.map (fun x => (neighbors c x).map (fun y => (x, y)))).flatten

/-- Support check used throughout: every word of `dx` has at least one word
of `dy` agreeing with it at the overlap offsets `(xo, yo)`. -/
def supportedB (dx dy : List Word) (xo yo : Nat) : Bool :=
  dx.all (fun w => dy.any (fun u => w.getD xo ' ' == u.getD yo ' '))

/-- The spec's arc-consistency invariant for a domain store: for every
ordered pair of crossword variables with an overlap, every word of the
first variable's domain has a supporting word in the second's domain. -/
def arcConsistentB (c : Crossword) (doms : Domains) : Bool :=
  c.vars.all (fun x => c.vars.all (fun y =>
    match c.overlaps x y with
    | some (xo, yo) => supportedB (doms x) (doms y) xo yo
    | none => true))

/-- Every crossword variable's domain is non-empty. -/
def allNonemptyB (c : Crossword) (doms : Domains) : Bool :=
  c.vars.all (fun v => !(doms v).isEmpty)

/-- Well-formedness of the overlap map, as the spec describes the Constraint
Graph: no self overlap, symmetric entries with swapped offsets, offsets
within the variables' lengths. -/
def wfOverlapsB (c : Crossword) : Bool :=
  c.vars.all (fun u => c.vars.all (fun v =>
    if u = v then (c.overlaps u v).isNone
    else
      match c.overlaps u v with
      | some (i, j) =>
        c.overlaps v u == some (j, i) &&
          decide (i < u.length) && decide (j < v.length)
      | none => true))

/-- A well-formed constraint graph: distinct variables and a well-formed
overlap map.  The spec states that the core assumes a well-formed graph
from the collaborator. -/
def WellFormed (c : Crossword) : Prop :=
  c.vars.Nodup ∧ wfOverlapsB c = true

/-- Assignments: the Python dict mapping variables to chosen words,
modelled as an association list in key insertion order (dict keys are
unique; the search only ever adds fresh keys). -/
abbrev Assignment := List (Variable × Word)

/-- Dict lookup: `assignment[v]` when present (`v in assignment` is
`(alookup a v).isSome`). -/
def alookup (a : Assignment) (v : Variable) : Option Word :=
  match a with
  | [] => none
  | p :: ps => if p.1 = v then some p.2 else alookup ps v

/-- Embeds `CrosswordCreator.assignment_complete`: every crossword variable
has a value in the assignment. -/
def assignment_complete (c : Crossword) (a : Assignment) : Bool :=
  c.vars.all (fun v => (alookup a v).isSome)

/-- The list `[*assignment.values()]`. -/
def valuesList (a : Assignment) : List Word := a.map (fun p => p.2)

/-- Embeds `CrosswordCreator.consistent`: fail when the assigned words are
not pairwise distinct (`len(words) != len(set(words))`, the number of
distinct values being `dedup.length`), fail when some assigned word's
length differs from its variable's length, fail when some assigned
variable disagrees with an assigned neighbor at the overlap offsets;
unassigned neighbors are skipped.  The `none` overlap branch is
unreachable for the symmetric overlap maps the collaborator produces
(Python would raise there). -/
def consistent (c : Crossword) (a : Assignment) : Bool :=
  if (valuesList a).dedup.length ≠ (valuesList a).length then false
  else if a.any (fun p => !(p.1.length == p.2.length)) then false
  else
    a.all (fun p => (neighbors c p.1).all (fun n =>
      match alookup a n with
      | none => true
      | some nw =>
        match c.overlaps p.1 n with
        | some (i, j) => p.2.getD i ' ' == nw.getD j ' '
        | none => true))

/-- Stable insertion modelling Python's stable `sorted` by domain size:
the new element goes before the first element whose domain is not strictly
smaller, so earlier elements win ties. -/
def insertBySize (doms : Domains) (v : Variable) :
    List Variable → List Variable
  | [] => [v]
  | u :: us =>
    if (doms u).length < (doms v).length then u :: insertBySize doms v us
    else v :: u :: us

/-- Stable sort of variables ascending by current domain size. -/
def sortBySize (doms : Domains) : List Variable → List Variable
  | [] => []
  | v :: vs => insertBySize doms v (sortBySize doms vs)

/-- Embeds `CrosswordCreator.select_unassigned_variable`: the variables not
in the assignment, stably sorted ascending by domain size; the Python code
returns the first element (and raises `IndexError` when there is none,
modelled as `none`).  No degree tie-break is performed. -/
def select_unassigned_variable (c : Crossword) (doms : Domains)
    (a : Assignment) : Option Variable :=
  (sortBySize doms (c.vars.filter (fun v => (alookup a v).isNone))).head?

/-- Count computed by `order_domain_values` for one candidate word: over the
unassigned neighbors of `vr`, the number of neighbor-domain words that
disagree with `w` at the overlap offsets.  The `none` overlap branch is
unreachable for symmetric overlap maps (Python would raise there). -/
def eliminates (c : Crossword) (doms : Domains) (vr : Variable)
    (a : Assignment) (w : Word) : Nat :=
  ((neighbors c vr).filter (fun n => (alookup a n).isNone)).foldl
    (fun acc n =>
      match c.overlaps vr n with
      | some (xo, yo) =>
        acc + ((doms n).filter
          (fun nw => !(w.getD xo ' ' == nw.getD yo ' '))).length
      | none => acc)
    0

/-- Stable insertion by the elimination count (second component); earlier
elements win ties, as with Python's stable `sorted`. -/
def insertByCount (p : Word × Nat) : List (Word × Nat) → List (Word × Nat)
  | [] => [p]
  | q :: qs => if q.2 < p.2 then q :: insertByCount p qs else p :: q :: qs

/-- Stable sort by elimination count. -/
def sortByCount : List (Word × Nat) → List (Word × Nat)
  | [] => []
  | p :: ps => insertByCount p (sortByCount ps)

/-- Embeds `CrosswordCreator.order_domain_values`: the candidate words of
`vr`, stably sorted ascending by the number of values they would rule out
for unassigned neighbors. -/
def order_domain_values (c : Crossword) (doms : Domains) (vr : Variable)
    (a : Assignment) : List Word :=
  (sortByCount ((doms vr).map (fun w => (w, eliminates c doms vr a w)))).map
    (fun p => p.1)

/-- Observable outcome of a `backtrack` call: `res` is the Python return
value (`none` = Python `None`); `doms` is the domain store object as it
stands after the call (the store is threaded through the whole recursion,
mirroring the shared `self.domains`); `caller` is the assignment dict the
caller passed in, as it stands after the call (the code writes only to
fresh copies); `calls` is a ghost count of `backtrack` invocations in the
call tree, this one included. -/
structure BT where
  res : Option Assignment
  doms : Domains
  caller : Assignment
  calls : Nat

/-- The `for value in self.domains[variable]:` loop of `backtrack`: extend
a fresh copy of the assignment with the next word, test it with
`consistent`, recurse (through `bk`, the one-level-deeper `backtrack`) on
success of the test, propagate the first successful recursive result, and
fall through to the next word otherwise.  Returns the Python result, the
threaded domain store, and the ghost count of `backtrack` invocations made
by the loop. -/
def tryValues (c : Crossword) (bk : Domains → Assignment → Option (Res BT))
    (v : Variable) (a : Assignment) :
    List Word → Domains → Option (Res (Option Assignment × Domains × Nat))
  | [], doms => some (Res.ok (none, doms, 0))
  | w :: ws, doms =>
    if consistent c (a ++ [(v, w)]) then
      match bk doms (a ++ [(v, w)]) with
      | none => none
      | some Res.exn => some Res.exn
      | some (Res.ok bt) =>
        match bt.res with
        | some r => some (Res.ok (some r, bt.doms, bt.calls))
        | none =>
          match tryValues c bk v a ws bt.doms with
          | none => none
          | some Res.exn => some Res.exn
          | some (Res.ok (res, doms1, k)) =>
            some (Res.ok (res, doms1, bt.calls + k))
    else tryValues c bk v a ws doms

/-- Embeds `CrosswordCreator.backtrack`: return the assignment once its
size reaches the number of variables; otherwise select an unassigned
variable (Python raises `IndexError`, here `Res.exn`, if there is none)
and try the words of its current domain in the domain's own order —
`order_domain_values` is not consulted.  Each extension is a fresh copy of
the assignment with one new entry. -/
def backtrack (c : Crossword) : Nat → Domains → Assignment → Option (Res BT)
  | 0, _, _ => none
  | fuel + 1, doms, a =>
    if a.length = c.vars.length then some (Res.ok ⟨some a, doms, a, 1⟩)
    else
      match select_unassigned_variable c doms a with
      | none => some Res.exn
      | some v =>
        match tryValues c (backtrack c fuel) v a (doms v) doms with
        | none => none
        | some Res.exn => some Res.exn
        | some (Res.ok (res, doms1, subcalls)) =>
          some (Res.ok ⟨res, doms1, a, 1 + subcalls⟩)

/-- Embeds `CrosswordCreator.solve`: enforce node consistency on the
initial domains, run `ac3` on the default arc queue — the code discards
`ac3`'s Boolean result — and then always run `backtrack` from the empty
assignment.  The result pairs the Python return value with the ghost count
of `backtrack` invocations. -/
def solve (c : Crossword) (fuel : Nat) :
    Option (Res (Option Assignment × Nat)) :=
  match ac3 c fuel (initialArcs c)
      (enforce_node_consistency c (initialDomains c)) with
  | none => none
  | some Res.exn => some Res.exn
  | some (Res.ok (_, doms2)) =>
    match backtrack c fuel doms2 [] with
    | none => none
    | some Res.exn => some Res.exn
    | some (Res.ok bt) => some (Res.ok (bt.res, bt.calls))

/-- Ghost observation: the number of `backtrack` invocations a `solve` run
performed (0 when the run did not return normally). -/
def searchAttempts : Option (Res (Option Assignment × Nat)) → Nat
  | some (Res.ok (_, k)) => k
  | _ => 0

/-- Value loop of `backtrackLCV` (`bk` is the one-level-deeper call). -/
def tryValuesLCV (c : Crossword)
    (bk : Domains → Assignment → Option (Option Assignment))
    (v : Variable) (a : Assignment) :
    List Word → Domains → Option (Option Assignment)
  | [], _ => some none
  | w :: ws, doms =>
    if consistent c (a ++ [(v, w)]) then
      match bk doms (a ++ [(v, w)]) with
      | none => none
      | some (some r) => some (some r)
      | some none => tryValuesLCV c bk v a ws doms
    else tryValuesLCV c bk v a ws doms

/-- Refinement definition for the value-ordering claim, following the
spec's words (4.5 with the value ordering of 4.4): identical to
`backtrack` except that the selected variable's candidates are iterated in
the order produced by `order_domain_values`.  Instrumentation is omitted;
only the returned assignment matters. -/
def backtrackLCV (c : Crossword) : Nat → Domains → Assignment →
    Option (Option Assignment)
  | 0, _, _ => none
  | fuel + 1, doms, a =>
    if a.length = c.vars.length then some (some a)
    else
      match select_unassigned_variable c doms a with
      | none => none
      | some v =>
        tryValuesLCV c (backtrackLCV c fuel) v a
          (order_domain_values c doms v a) doms

/-! ### Concrete instances used as inputs of counterexamples and witnesses -/

/-- Across variable of the offset-zero instance. -/
def X2 : Variable := ⟨0, 0, false, 3⟩

/-- Down variable of the offset-zero instance. -/
def Y2 : Variable := ⟨0, 0, true, 3⟩

/-- Two length-3 variables crossing at the first character of both: the
overlap offsets are `(0, 0)`. -/
def cc2 : Crossword where
  vars := [X2, Y2]
  words := [chars "ABC", chars "XYZ"]
  overlaps := fun u v =>
    if u = X2 ∧ v = Y2 then some (0, 0)
    else if u = Y2 ∧ v = X2 then some (0, 0)
    else none

/-- Domain store for `cc2`: the single candidates disagree at the shared
cell (`'A' ≠ 'X'`). -/
def d2 : Domains := fun v =>
  if v = X2 then [chars "ABC"] else if v = Y2 then [chars "XYZ"] else []

/-- A variable that is not part of `cc2` and overlaps nothing. -/
def Z8 : Variable := ⟨5, 5, false, 2⟩

/-- Isolated variable of the empty-domain instance. -/
def V7 : Variable := ⟨0, 0, false, 3⟩

/-- A crossword with one isolated length-3 variable whose vocabulary has
only a length-2 word, so node consistency empties the domain. -/
def cc7 : Crossword where
  vars := [V7]
  words := [chars "AB"]
  overlaps := fun _ _ => none

/-- The empty domain store for `cc7` (what node consistency produces). -/
def d7 : Domains := fun _ => []

/-! ### C2, C7 (counterexample), C8 -/

/-- C2: refuted as stated.  On `cc2` the two variables overlap at offsets
`(0, 0)`; `ac3` on the default arc queue reports success and leaves the
store untouched, yet the store is not arc-consistent: `"ABC"` has no
support in the neighbor's domain.  The `if x_overlap:` guard of `revise`
treats the offset `0` as "no overlap", contradicting `revise`'s own
docstring, so the invariant fails for overlaps whose first offset is 0. -/
theorem ac3_zero_offset_success_not_arc_consistent :
    cc2.overlaps X2 Y2 = some (0, 0) ∧
    ac3 cc2 3 (initialArcs cc2) d2 = some (Res.ok (true, d2)) ∧
    arcConsistentB cc2 d2 = false :=
  ⟨rfl, rfl, rfl⟩

/-- C7, counterexample: `ac3` can return `True` while a domain is empty.
On `cc7` the only variable has an empty domain and no neighbors, so the
default arc queue is empty and `ac3` immediately returns `True`, leaving
the empty domain in place. -/
theorem ac3_true_with_empty_domain :
    ac3 cc7 1 (initialArcs cc7) d7 = some (Res.ok (true, d7)) ∧ d7 V7 = [] :=
  ⟨rfl, rfl⟩

/-- C8: refuted as stated / code bug.  When `ac3` pops an arc whose two
variables have no overlap (`overlaps[x, y] is None`), the code does not
skip the arc: unpacking `None` into `x_overlap, y_overlap` raises a
`TypeError` that propagates out of `ac3` (modelled as `Res.exn`). -/
theorem ac3_no_overlap_arc_raises :
    cc2.overlaps X2 Z8 = none ∧
    ac3 cc2 2 [(X2, Z8)] d2 = some Res.exn :=
  ⟨rfl, rfl⟩

/-- C3, counterexample: on `cc7`, node consistency empties the only
variable's domain, yet `solve` does not short-circuit: it still performs a
`backtrack` invocation (ghost count 1) before reporting `None`; the code
discards `ac3`'s Boolean result. -/
theorem solve_searches_on_empty_domain :
    enforce_node_consistency cc7 (initialDomains cc7) V7 = [] ∧
    solve cc7 9 = some (Res.ok (none, 1)) ∧
    searchAttempts (solve cc7 9) = 1 :=
  ⟨rfl, rfl, rfl⟩

/-! ### Instance for the value-ordering claim -/

/-- Length-3 variable tried first by the search (smaller domain). -/
def X4 : Variable := ⟨0, 0, false, 3⟩

/-- Length-4 variable crossing `X4`: `X4`'s index 1 meets `Y4`'s index 0. -/
def Y4 : Variable := ⟨0, 1, true, 4⟩

/-- Crossword where the least-constraining-value order of `X4`'s domain
(`COT` before `CAT`) differs from the domain's own order (`CAT` before
`COT`). -/
def cc4 : Crossword where
  vars := [X4, Y4]
  words := [chars "CAT", chars "COT", chars "ARTS", chars "OPAL", chars "OVEN"]
  overlaps := fun u v =>
    if u = X4 ∧ v = Y4 then some (1, 0)
    else if u = Y4 ∧ v = X4 then some (0, 1)
    else none

/-- Domain store for `cc4`: `CAT` rules out two of `Y4`'s three words
(`OPAL`, `OVEN`), `COT` rules out one (`ARTS`), so LCV orders `COT`
first, while the stored domain lists `CAT` first. -/
def d4 : Domains := fun v =>
  if v = X4 then [chars "CAT", chars "COT"]
  else if v = Y4 then [chars "ARTS", chars "OPAL", chars "OVEN"]
  else []

/-- C4, counterexample: `backtrack` tries `X4`'s candidates in the stored
domain order, not in the `order_domain_values` order: the code returns the
solution reached from `CAT` (the first stored word), while the
spec-faithful variant `backtrackLCV` — identical except for consulting
`order_domain_values` — returns the solution reached from `COT` (the
least-constraining word).  The results differ, so the trial orders
differ. -/
theorem backtrack_ignores_lcv_order :
    order_domain_values cc4 d4 X4 [] = [chars "COT", chars "CAT"] ∧
    backtrack cc4 9 d4 [] =
      some (Res.ok ⟨some [(X4, chars "CAT"), (Y4, chars "ARTS")], d4, [], 3⟩) ∧
    backtrackLCV cc4 9 d4 [] =
      some (some [(X4, chars "COT"), (Y4, chars "OPAL")]) ∧
    some [(X4, chars "CAT"), (Y4, chars "ARTS")] ≠
      some [(X4, chars "COT"), (Y4, chars "OPAL")] :=
  ⟨rfl, rfl, rfl, by decide⟩

/-! ### Instance for the variable-selection claim -/

/-- Isolated variable with a singleton domain. -/
def A5 : Variable := ⟨0, 0, false, 2⟩

/-- Variable with a singleton domain and one neighbor. -/
def B5 : Variable := ⟨3, 0, false, 2⟩

/-- Neighbor of `B5` with a two-word domain. -/
def Cv5 : Variable := ⟨3, 0, true, 2⟩

/-- Crossword where `A5` and `B5` tie on minimum domain size but `B5` has
the higher degree. -/
def cc5 : Crossword where
  vars := [A5, B5, Cv5]
  words := [chars "AB", chars "CB", chars "DB", chars "EB"]
  overlaps := fun u v =>
    if u = B5 ∧ v = Cv5 then some (1, 1)
    else if u = Cv5 ∧ v = B5 then some (1, 1)
    else none

/-- Domain store for `cc5`: sizes 1, 1, 2. -/
def d5 : Domains := fun v =>
  if v = A5 then [chars "AB"]
  else if v = B5 then [chars "CB"]
  else if v = Cv5 then [chars "DB", chars "EB"]
  else []

/-- C5: code bug.  On `cc5` with the empty assignment, `A5` and `B5` tie on
the minimum remaining domain size (1), and `B5` has strictly more neighbors
than `A5`; the docstring of `select_unassigned_variable` promises the
highest-degree variable on a tie, but the code never looks at degrees and
returns the first minimal variable in store order, `A5`. -/
theorem select_ignores_degree :
    select_unassigned_variable cc5 d5 [] = some A5 ∧
    (d5 A5).length = (d5 B5).length ∧
    (neighbors cc5 A5).length < (neighbors cc5 B5).length :=
  ⟨rfl, rfl, by decide⟩

/-! ### Helper lemmas -/

lemma revise_false_eq {c : Crossword} {doms : Domains} {x y : Variable}
    {doms1 : Domains} (h : revise c doms x y = some (false, doms1)) :
    doms1 = doms := by
  unfold revise at h
  split at h
  · cases h
  · split at h
    · cases h
      rfl
    · dsimp only at h
      split at h
      · cases h
        rfl
      · exact absurd h (by simp)

lemma revise_true_apply {c : Crossword} {doms : Domains} {x y : Variable}
    {doms1 : Domains} (h : revise c doms x y = some (true, doms1)) :
    ∀ v, v ≠ x → doms1 v = doms v := by
  unfold revise at h
  split at h
  · cases h
  · split at h
    · exact absurd h (by simp)
    · dsimp only at h
      split at h
      · exact absurd h (by simp)
      · cases h
        intro v hv
        simp [if_neg hv]

lemma tryValues_doms_eq {c : Crossword} {fuel : Nat}
    (IH : ∀ doms a bt, backtrack c fuel doms a = some (Res.ok bt) →
      bt.doms = doms) :
    ∀ {values : List Word} {v : Variable} {a : Assignment} {doms : Domains}
      {res : Option Assignment} {doms1 : Domains} {k : Nat},
      tryValues c (backtrack c fuel) v a values doms =
        some (Res.ok (res, doms1, k)) →
      doms1 = doms := by
  intro values
  induction values with
  | nil =>
    intro v a doms res doms1 k h
    simp only [tryValues] at h
    cases h
    rfl
  | cons w ws ih =>
    intro v a doms res doms1 k h
    simp only [tryValues] at h
    split at h
    · split at h
      · cases h
      · cases h
      · rename_i bt hb
        split at h
        · cases h
          exact IH _ _ _ hb
        · split at h
          · cases h
          · cases h
          · rename_i ht
            cases h
            exact (ih ht).trans (IH _ _ _ hb)
    · exact ih h

lemma backtrack_doms_eq {c : Crossword} :
    ∀ {fuel : Nat} {doms : Domains} {a : Assignment} {bt : BT},
      backtrack c fuel doms a = some (Res.ok bt) → bt.doms = doms := by
  intro fuel
  induction fuel with
  | zero => intro doms a bt h; cases h
  | succ fuel ih =>
    intro doms a bt h
    simp only [backtrack] at h
    split at h
    · cases h
      rfl
    · split at h
      · cases h
      · split at h
        · cases h
        · cases h
        · rename_i ht
          cases h
          exact tryValues_doms_eq (fun doms a bt hb => ih hb) ht

lemma backtrack_caller_eq {c : Crossword} {fuel : Nat} {doms : Domains}
    {a : Assignment} {bt : BT}
    (h : backtrack c fuel doms a = some (Res.ok bt)) : bt.caller = a := by
  cases fuel with
  | zero => cases h
  | succ fuel =>
    simp only [backtrack] at h
    split at h
    · cases h
      rfl
    · split at h
      · cases h
      · split at h
        · cases h
        · cases h
        · cases h
          rfl

/-! ### C10 -/

/-- C10: confirmed.  A `backtrack` call that returns normally leaves the
domain store it was given unchanged (the store is threaded through the
entire recursion and every branch hands it back untouched — the search
never writes to it) and leaves the caller's assignment object unchanged
(every extension is made on a fresh copy, as `assignment.copy()` in the
code). -/
theorem backtrack_frame (c : Crossword) (fuel : Nat) (doms : Domains)
    (a : Assignment) (bt : BT)
    (h : backtrack c fuel doms a = some (Res.ok bt)) :
    bt.doms = doms ∧ bt.caller = a :=
  ⟨backtrack_doms_eq h, backtrack_caller_eq h⟩

/-- Witness for `backtrack_frame` at the concrete instance `cc4`. -/
theorem backtrack_frame_witness :
    ∃ bt, backtrack cc4 9 d4 [] = some (Res.ok bt) ∧
      bt.doms = d4 ∧ bt.caller = [] :=
  ⟨_, rfl, backtrack_frame cc4 9 d4 [] _ rfl⟩

/-! ### C7 (amended) and C9 -/

lemma allNonemptyB_iff {c : Crossword} {doms : Domains} :
    allNonemptyB c doms = true ↔ ∀ v ∈ c.vars, doms v ≠ [] := by
  simp [allNonemptyB, List.all_eq_true, List.isEmpty_iff]

/-- C7 (amended): `ac3` returns `False` only at the moment a revision
empties the revised domain, and returns `True` when the arc queue empties;
consequently a `True` return guarantees non-empty domains only when every
domain was non-empty at entry — a domain already empty before the call
(for example one emptied by node consistency on a variable no processed
arc touches) survives a `True` return, as `ac3_true_with_empty_domain`
shows. -/
theorem ac3_true_preserves_nonempty (c : Crossword) :
    ∀ (fuel : Nat) (queue : List (Variable × Variable)) (doms doms1 : Domains),
      allNonemptyB c doms = true →
      ac3 c fuel queue doms = some (Res.ok (true, doms1)) →
      allNonemptyB c doms1 = true := by
  intro fuel
  induction fuel with
  | zero => intro queue doms doms1 hne h; cases h
  | succ fuel ih =>
    intro queue doms doms1 hne h
    cases queue with
    | nil =>
      simp only [ac3] at h
      cases h
      exact hne
    | cons arc rest =>
      obtain ⟨x, y⟩ := arc
      simp only [ac3] at h
      split at h
      · cases h
      · rename_i doms2 hr
        exact ih rest doms2 doms1 (revise_false_eq hr ▸ hne) h
      · rename_i doms2 hr
        split at h
        · cases h
        · rename_i hxne
          refine ih _ doms2 doms1 ?_ h
          rw [allNonemptyB_iff]
          intro v hv
          by_cases hvx : v = x
          · rw [hvx]
            exact hxne
          · rw [revise_true_apply hr v hvx]
            exact allNonemptyB_iff.mp hne v hv

/-- Instance with an actual revision: arc consistency removes `"ZZ"` from
the first variable's domain and every domain stays non-empty. -/
def XR : Variable := ⟨0, 0, false, 2⟩

/-- Down neighbor of `XR`. -/
def YR : Variable := ⟨1, 0, true, 2⟩

/-- Crossword whose first domain loses one word during propagation. -/
def ccR : Crossword where
  vars := [XR, YR]
  words := [chars "AB", chars "ZZ", chars "CB"]
  overlaps := fun u v =>
    if u = XR ∧ v = YR then some (1, 1)
    else if u = YR ∧ v = XR then some (1, 1)
    else none

/-- Domain store for `ccR`: `"ZZ"` has no support and is pruned. -/
def dR : Domains := fun v =>
  if v = XR then [chars "AB", chars "ZZ"]
  else if v = YR then [chars "CB"]
  else []

/-- Witness for `ac3_true_preserves_nonempty` on `ccR`: the run revises a
domain, returns `True`, and the resulting store is everywhere
non-empty. -/
theorem ac3_true_preserves_nonempty_witness :
    allNonemptyB ccR dR = true ∧
    ∃ doms1, ac3 ccR 4 (initialArcs ccR) dR = some (Res.ok (true, doms1)) ∧
      allNonemptyB ccR doms1 = true :=
  ⟨by decide,
    ⟨_, rfl,
      ac3_true_preserves_nonempty ccR 4 (initialArcs ccR) dR _ (by decide) rfl⟩⟩

lemma wf_overlap_symm {c : Crossword} (hwf : wfOverlapsB c = true)
    {u v : Variable} (hu : u ∈ c.vars) (hv : v ∈ c.vars) {i j : Nat}
    (h : c.overlaps u v = some (i, j)) :
    c.overlaps v u = some (j, i) ∧ i < u.length ∧ j < v.length := by
  simp only [wfOverlapsB, List.all_eq_true] at hwf
  have h2 := hwf u hu v hv
  by_cases huv : u = v
  · subst huv
    rw [if_pos rfl, h] at h2
    simp at h2
  · rw [if_neg huv] at h2
    rw [h] at h2
    simpa [and_assoc] using h2

lemma mem_neighbors {c : Crossword} {u v : Variable} :
    u ∈ neighbors c v ↔ u ∈ c.vars ∧ u ≠ v ∧ (c.overlaps u v).isSome := by
  unfold neighbors
  rw [List.mem_filter]
  constructor
  · rintro ⟨h1, h2⟩
    by_cases huv : u = v
    · rw [if_pos huv] at h2
      cases h2
    · rw [if_neg huv] at h2
      exact ⟨h1, huv, h2⟩
  · rintro ⟨h1, h2, h3⟩
    refine ⟨h1, ?_⟩
    rw [if_neg h2]
    exact h3

lemma mem_initialArcs {c : Crossword} {x y : Variable}
    (h : (x, y) ∈ initialArcs c) : x ∈ c.vars ∧ y ∈ neighbors c x := by
  unfold initialArcs at h
  rw [List.mem_flatten] at h
  obtain ⟨l, hl, hxy⟩ := h
  rw [List.mem_map] at hl
  obtain ⟨x1, hx1, rfl⟩ := hl
  rw [List.mem_map] at hxy
  obtain ⟨y1, hy1, heq⟩ := hxy
  cases heq
  exact ⟨hx1, hy1⟩

lemma arcConsistent_supported {c : Crossword} {doms : Domains}
    {x y : Variable} {xo yo : Nat}
    (hac : arcConsistentB c doms = true) (hx : x ∈ c.vars) (hy : y ∈ c.vars)
    (h : c.overlaps x y = some (xo, yo)) :
    supportedB (doms x) (doms y) xo yo = true := by
  simp only [arcConsistentB, List.all_eq_true] at hac
  have h2 := hac x hx y hy
  rw [h] at h2
  simpa using h2

lemma revise_noop {c : Crossword} {doms : Domains} {x y : Variable}
    {xo yo : Nat} (h : c.overlaps x y = some (xo, yo))
    (hs : supportedB (doms x) (doms y) xo yo = true) :
    revise c doms x y = some (false, doms) := by
  unfold revise
  rw [h]
  dsimp only
  by_cases h0 : xo = 0
  · rw [if_pos h0]
  · rw [if_neg h0]
    have hsup := hs
    simp only [supportedB, List.all_eq_true] at hsup
    have hfilter : (doms x).filter
        (fun w => (doms y).any (fun u => w.getD xo ' ' == u.getD yo ' '))
        = doms x :=
      List.filter_eq_self.mpr (fun w hw => hsup w hw)
    rw [hfilter, if_pos rfl]

lemma ac3_noop_of_arcConsistent {c : Crossword} {doms : Domains}
    (hac : arcConsistentB c doms = true) :
    ∀ (queue : List (Variable × Variable)) (fuel : Nat),
      (∀ p ∈ queue, p.1 ∈ c.vars ∧ p.2 ∈ c.vars ∧
        ∃ i j, c.overlaps p.1 p.2 = some (i, j)) →
      queue.length < fuel →
      ac3 c fuel queue doms = some (Res.ok (true, doms)) := by
  intro queue
  induction queue with
  | nil =>
    intro fuel hq hf
    cases fuel with
    | zero => omega
    | succ fuel => simp [ac3]
  | cons arc rest ih =>
    intro fuel hq hf
    obtain ⟨x, y⟩ := arc
    cases fuel with
    | zero => omega
    | succ fuel =>
      obtain ⟨hx, hy, i, j, hov⟩ := hq (x, y) (by simp)
      have hr := revise_noop hov (arcConsistent_supported hac hx hy hov)
      simp only [ac3, hr]
      refine ih fuel (fun p hp => hq p (by simp [hp])) ?_
      simpa using Nat.lt_of_succ_lt_succ (by simpa using hf)

/-- C9: confirmed.  Running `ac3` on the default arc queue over a domain
store that is already arc-consistent performs zero removals — the store
returned is exactly the store passed in — and the call reports success. -/
theorem ac3_idempotent (c : Crossword) (doms : Domains) (fuel : Nat)
    (hwf : wfOverlapsB c = true) (hac : arcConsistentB c doms = true)
    (hfuel : (initialArcs c).length < fuel) :
    ac3 c fuel (initialArcs c) doms = some (Res.ok (true, doms)) := by
  refine ac3_noop_of_arcConsistent hac (initialArcs c) fuel ?_ hfuel
  intro p hp
  obtain ⟨x, y⟩ := p
  obtain ⟨hx, hy⟩ := mem_initialArcs hp
  obtain ⟨hyv, _hne, hsome⟩ := mem_neighbors.mp hy
  obtain ⟨⟨i, j⟩, hij⟩ := Option.isSome_iff_exists.mp hsome
  exact ⟨hx, hyv, j, i, (wf_overlap_symm hwf hyv hx hij).1⟩

/-- Across variable of the already-arc-consistent instance. -/
def X9 : Variable := ⟨0, 0, false, 2⟩

/-- Down variable of the already-arc-consistent instance. -/
def Y9 : Variable := ⟨1, 0, true, 2⟩

/-- Crossword whose two domains already support each other at the shared
offsets `(1, 1)` (`"AB"` and `"CB"` both end in `'B'`). -/
def cc9 : Crossword where
  vars := [X9, Y9]
  words := [chars "AB", chars "CB"]
  overlaps := fun u v =>
    if u = X9 ∧ v = Y9 then some (1, 1)
    else if u = Y9 ∧ v = X9 then some (1, 1)
    else none

/-- Arc-consistent domain store for `cc9`. -/
def d9 : Domains := fun v =>
  if v = X9 then [chars "AB"] else if v = Y9 then [chars "CB"] else []

/-- Witness for `ac3_idempotent` at the concrete instance `cc9`. -/
theorem ac3_idempotent_witness :
    arcConsistentB cc9 d9 = true ∧
    ac3 cc9 3 (initialArcs cc9) d9 = some (Res.ok (true, d9)) :=
  ⟨by decide, ac3_idempotent cc9 d9 3 (by decide) (by decide) (by decide)⟩

/-! ### Assignment lookup lemmas -/

lemma alookup_eq_none_iff {a : Assignment} {v : Variable} :
    alookup a v = none ↔ v ∉ a.map (fun p => p.1) := by
  induction a with
  | nil => simp [alookup]
  | cons p ps ih =>
    simp only [alookup, List.map_cons, List.mem_cons]
    by_cases h : p.1 = v
    · simp [h]
    · rw [if_neg h, ih]
      constructor
      · intro hn hmem
        rcases hmem with h1 | h2
        · exact h h1.symm
        · exact hn h2
      · intro hn h2
        exact hn (Or.inr h2)

lemma alookup_mem {a : Assignment} {v : Variable} {w : Word}
    (h : alookup a v = some w) : (v, w) ∈ a := by
  induction a with
  | nil => cases h
  | cons p ps ih =>
    obtain ⟨p1, p2⟩ := p
    simp only [alookup] at h
    by_cases hp : p1 = v
    · rw [if_pos hp] at h
      subst hp
      cases h
      exact List.mem_cons_self _ _
    · rw [if_neg hp] at h
      exact List.mem_cons_of_mem _ (ih h)

lemma alookup_of_mem_nodup {a : Assignment} {q : Variable × Word}
    (hnd : (a.map (fun p => p.1)).Nodup) (hq : q ∈ a) :
    alookup a q.1 = some q.2 := by
  induction a with
  | nil => cases hq
  | cons p ps ih =>
    simp only [List.map_cons, List.nodup_cons] at hnd
    rcases List.mem_cons.mp hq with rfl | hmem
    · simp [alookup]
    · have hne : ¬ p.1 = q.1 := fun he =>
        hnd.1 (he ▸ List.mem_map_of_mem (fun p => p.1) hmem)
      simp only [alookup, if_neg hne]
      exact ih hnd.2 hmem

lemma alookup_append_ne {a : Assignment} {v u : Variable} {w : Word}
    (h : u ≠ v) : alookup (a ++ [(v, w)]) u = alookup a u := by
  induction a with
  | nil =>
    simp only [List.nil_append, alookup]
    rw [if_neg (fun he => h he.symm)]
  | cons p ps ih =>
    rw [List.cons_append]
    simp only [alookup]
    by_cases hp : p.1 = u
    · rw [if_pos hp, if_pos hp]
    · rw [if_neg hp, if_neg hp]
      exact ih

lemma alookup_append_self {a : Assignment} {v : Variable} {w : Word}
    (h : alookup a v = none) : alookup (a ++ [(v, w)]) v = some w := by
  induction a with
  | nil => simp [alookup]
  | cons p ps ih =>
    simp only [alookup] at h
    rw [List.cons_append]
    simp only [alookup]
    by_cases hp : p.1 = v
    · rw [if_pos hp] at h
      cases h
    · rw [if_neg hp] at h ⊢
      exact ih h

/-! ### C6 -/

/-- The Consistency Checker contract as the spec's words state it: the
assigned words are pairwise distinct, each assigned word's length equals
its variable's length, and every two assigned entries whose variables
overlap agree at the overlap offsets (entries whose partner is not
assigned impose nothing). -/
def SpecConsistent (c : Crossword) (a : Assignment) : Prop :=
  (valuesList a).Nodup ∧
  (∀ p ∈ a, p.1.length = p.2.length) ∧
  (∀ p ∈ a, ∀ q ∈ a, ∀ i j, c.overlaps p.1 q.1 = some (i, j) →
    p.2.getD i ' ' = q.2.getD j ' ')

lemma dedup_length_eq_iff {l : List Word} :
    l.dedup.length = l.length ↔ l.Nodup := by
  constructor
  · intro h
    have heq : l.dedup = l := (List.dedup_sublist l).eq_of_length h
    rw [← heq]
    exact l.nodup_dedup
  · intro h
    rw [List.dedup_eq_self.mpr h]

lemma wf_overlap_self {c : Crossword} (hwf : wfOverlapsB c = true)
    {u : Variable} (hu : u ∈ c.vars) : c.overlaps u u = none := by
  simp only [wfOverlapsB, List.all_eq_true] at hwf
  have h2 := hwf u hu u hu
  rw [if_pos rfl] at h2
  exact Option.isNone_iff_eq_none.mp h2

/-- C6: confirmed.  For a well-formed overlap map and a genuine dict
assignment (unique keys, keys among the crossword's variables, both
partial and total assignments allowed), `consistent` returns `True`
exactly when the assigned words are pairwise distinct, every assigned
word's length equals its variable's length, and every two assigned
overlapping variables agree at the overlap offsets; pairs with an
unassigned partner are skipped. -/
theorem consistent_iff_spec (c : Crossword) (a : Assignment)
    (hwf : wfOverlapsB c = true)
    (hnd : (a.map (fun p => p.1)).Nodup)
    (hkeysB : a.all (fun p => decide (p.1 ∈ c.vars)) = true) :
    consistent c a = true ↔ SpecConsistent c a := by
  have hkeys : ∀ p ∈ a, p.1 ∈ c.vars := by
    simpa [List.all_eq_true] using hkeysB
  unfold consistent
  by_cases h1 : (valuesList a).dedup.length ≠ (valuesList a).length
  · rw [if_pos h1]
    exact ⟨fun hh => absurd hh (by simp),
      fun hs => absurd (dedup_length_eq_iff.mpr hs.1) h1⟩
  · rw [if_neg h1]
    have hnodupv : (valuesList a).Nodup :=
      dedup_length_eq_iff.mp (not_ne_iff.mp h1)
    by_cases h2 : a.any (fun p => !(p.1.length == p.2.length)) = true
    · rw [if_pos h2]
      refine ⟨fun hh => absurd hh (by simp), fun hs => ?_⟩
      obtain ⟨p, hp, hne⟩ := List.any_eq_true.mp h2
      exact absurd (hs.2.1 p hp) (by simpa using hne)
    · rw [if_neg h2]
      have hlen : ∀ p ∈ a, p.1.length = p.2.length := by
        intro p hp
        by_contra hne
        exact h2 (List.any_eq_true.mpr ⟨p, hp, by simpa using hne⟩)
      rw [List.all_eq_true]
      constructor
      · intro hall
        refine ⟨hnodupv, hlen, ?_⟩
        intro p hp q hq i j hov
        by_cases hpq1 : p.1 = q.1
        · exfalso
          rw [← hpq1] at hov
          rw [wf_overlap_self hwf (hkeys p hp)] at hov
          cases hov
        · have hq1n : q.1 ∈ neighbors c p.1 := by
            rw [mem_neighbors]
            refine ⟨hkeys q hq, fun he => hpq1 he.symm, ?_⟩
            rw [(wf_overlap_symm hwf (hkeys p hp) (hkeys q hq) hov).1]
            rfl
          have h3 := List.all_eq_true.mp (hall p hp) q.1 hq1n
          simp only [alookup_of_mem_nodup hnd hq, hov] at h3
          simpa using h3
      · intro hs p hp
        rw [List.all_eq_true]
        intro n hn
        cases han : alookup a n with
        | none => simp [han]
        | some nw =>
          cases hov : c.overlaps p.1 n with
          | none => simp [han, hov]
          | some ij =>
            obtain ⟨i, j⟩ := ij
            simp only [han, hov]
            have hmem := alookup_mem han
            simpa using hs.2.2 p hp (n, nw) hmem i j hov

/-- Witness for `consistent_iff_spec`: a concrete consistent total
assignment on `cc9`, with the spec-level property obtained through the
theorem. -/
theorem consistent_iff_spec_witness :
    consistent cc9 [(X9, chars "AB"), (Y9, chars "CB")] = true ∧
    SpecConsistent cc9 [(X9, chars "AB"), (Y9, chars "CB")] :=
  ⟨by decide,
    (consistent_iff_spec cc9 [(X9, chars "AB"), (Y9, chars "CB")]
      (by decide) (by decide) (by decide)).mp (by decide)⟩

/-! ### Heuristic selection lemmas -/

lemma mem_insertBySize {doms : Domains} {v u : Variable} :
    ∀ {l : List Variable}, u ∈ insertBySize doms v l ↔ u = v ∨ u ∈ l := by
  intro l
  induction l with
  | nil => simp [insertBySize]
  | cons x xs ih =>
    simp only [insertBySize]
    by_cases h : (doms x).length < (doms v).length
    · rw [if_pos h]
      simp only [List.mem_cons, ih]
      tauto
    · rw [if_neg h]
      simp only [List.mem_cons]

lemma mem_sortBySize {doms : Domains} {u : Variable} :
    ∀ {l : List Variable}, u ∈ sortBySize doms l ↔ u ∈ l := by
  intro l
  induction l with
  | nil => simp [sortBySize]
  | cons x xs ih => simp [sortBySize, mem_insertBySize, ih]

lemma select_spec {c : Crossword} {doms : Domains} {a : Assignment}
    {v : Variable} (h : select_unassigned_variable c doms a = some v) :
    v ∈ c.vars ∧ alookup a v = none := by
  unfold select_unassigned_variable at h
  have hv : v ∈ sortBySize doms
      (c.vars.filter (fun x => (alookup a x).isNone)) := by
    cases hs : sortBySize doms
        (c.vars.filter (fun x => (alookup a x).isNone)) with
    | nil => rw [hs] at h; cases h
    | cons y ys =>
      rw [hs] at h
      cases h
      exact List.mem_cons_self _ _
  rw [mem_sortBySize, List.mem_filter] at hv
  exact ⟨hv.1, Option.isNone_iff_eq_none.mp hv.2⟩

lemma select_isSome {c : Crossword} (doms : Domains) {a : Assignment}
    {v0 : Variable} (hv0 : v0 ∈ c.vars) (ha : alookup a v0 = none) :
    ∃ v, select_unassigned_variable c doms a = some v := by
  unfold select_unassigned_variable
  have hmem : v0 ∈ sortBySize doms
      (c.vars.filter (fun x => (alookup a x).isNone)) := by
    rw [mem_sortBySize, List.mem_filter]
    exact ⟨hv0, by simp [ha]⟩
  cases hs : sortBySize doms
      (c.vars.filter (fun x => (alookup a x).isNone)) with
  | nil => rw [hs] at hmem; cases hmem
  | cons y ys => exact ⟨y, rfl⟩

lemma keys_append_nodup {a : Assignment} {v : Variable} {w : Word}
    (hnd : (a.map (fun p => p.1)).Nodup) (hv : alookup a v = none) :
    ((a ++ [(v, w)]).map (fun p => p.1)).Nodup := by
  rw [List.map_append, List.nodup_append]
  refine ⟨hnd, by simp, ?_⟩
  intro x hx hx2
  simp at hx2
  subst hx2
  exact (alookup_eq_none_iff.mp hv) hx

lemma mem_append_pair {a : Assignment} {v : Variable} {w : Word}
    {c : Crossword} (hkeys : ∀ p ∈ a, p.1 ∈ c.vars) (hv : v ∈ c.vars) :
    ∀ p ∈ a ++ [(v, w)], p.1 ∈ c.vars := by
  intro p hp
  rcases List.mem_append.mp hp with h1 | h1
  · exact hkeys p h1
  · simp at h1
    subst h1
    exact hv

/-! ### C1 -/

lemma consistent_nil (c : Crossword) : consistent c [] = true := rfl

lemma complete_of_length {c : Crossword} {a : Assignment}
    (hvn : c.vars.Nodup) (hnd : (a.map (fun p => p.1)).Nodup)
    (hkeys : ∀ p ∈ a, p.1 ∈ c.vars) (hlen : a.length = c.vars.length) :
    assignment_complete c a = true := by
  have hsub : (a.map (fun p => p.1)).toFinset ⊆ c.vars.toFinset := by
    intro x hx
    rw [List.mem_toFinset] at hx ⊢
    obtain ⟨p, hp, rfl⟩ := List.mem_map.mp hx
    exact hkeys p hp
  have hcard : c.vars.toFinset.card ≤ (a.map (fun p => p.1)).toFinset.card := by
    rw [List.toFinset_card_of_nodup hvn, List.toFinset_card_of_nodup hnd]
    simp [hlen]
  have heq : (a.map (fun p => p.1)).toFinset = c.vars.toFinset :=
    Finset.eq_of_subset_of_card_le hsub hcard
  rw [assignment_complete, List.all_eq_true]
  intro v hv
  have hvk : v ∈ a.map (fun p => p.1) := by
    rw [← List.mem_toFinset, heq, List.mem_toFinset]
    exact hv
  cases hl : alookup a v with
  | none => exact absurd hvk (alookup_eq_none_iff.mp hl)
  | some w => rfl

lemma tryValues_sound {c : Crossword} {fuel : Nat} (_hvn : c.vars.Nodup)
    (IH : ∀ doms a bt, (a.map (fun p => p.1)).Nodup →
      (∀ p ∈ a, p.1 ∈ c.vars) → consistent c a = true →
      backtrack c fuel doms a = some (Res.ok bt) →
      ∀ r, bt.res = some r →
        assignment_complete c r = true ∧ consistent c r = true) :
    ∀ (values : List Word) (v : Variable) (a : Assignment) (doms : Domains)
      (res : Option Assignment) (doms1 : Domains) (k : Nat),
      (a.map (fun p => p.1)).Nodup → (∀ p ∈ a, p.1 ∈ c.vars) →
      v ∈ c.vars → alookup a v = none →
      tryValues c (backtrack c fuel) v a values doms =
        some (Res.ok (res, doms1, k)) →
      ∀ r, res = some r →
        assignment_complete c r = true ∧ consistent c r = true := by
  intro values
  induction values with
  | nil =>
    intro v a doms res doms1 k _ _ _ _ h r hr
    simp only [tryValues] at h
    cases h
    cases hr
  | cons w ws ih =>
    intro v a doms res doms1 k hnd hkeys hv ha h r hr
    simp only [tryValues] at h
    split at h
    · rename_i hcons
      split at h
      · cases h
      · cases h
      · rename_i bt hb
        split at h
        · rename_i hres
          cases h
          cases hr
          exact IH doms (a ++ [(v, w)]) bt
            (keys_append_nodup hnd ha) (mem_append_pair hkeys hv)
            hcons hb _ hres
        · split at h
          · cases h
          · cases h
          · rename_i ht
            cases h
            exact ih v a bt.doms res doms1 _ hnd hkeys hv ha ht r hr
    · exact ih v a doms res doms1 k hnd hkeys hv ha h r hr

lemma backtrack_sound {c : Crossword} (hvn : c.vars.Nodup) :
    ∀ (fuel : Nat) (doms : Domains) (a : Assignment) (bt : BT),
      (a.map (fun p => p.1)).Nodup → (∀ p ∈ a, p.1 ∈ c.vars) →
      consistent c a = true →
      backtrack c fuel doms a = some (Res.ok bt) →
      ∀ r, bt.res = some r →
        assignment_complete c r = true ∧ consistent c r = true := by
  intro fuel
  induction fuel with
  | zero => intro doms a bt _ _ _ h r hr; cases h
  | succ fuel ihf =>
    intro doms a bt hnd hkeys hcons h r hr
    simp only [backtrack] at h
    split at h
    · rename_i hlen
      cases h
      have hr2 : some a = some r := hr
      cases hr2
      exact ⟨complete_of_length hvn hnd hkeys hlen, hcons⟩
    · split at h
      · cases h
      · rename_i v hsel
        split at h
        · cases h
        · cases h
        · rename_i ht
          cases h
          obtain ⟨hvv, hva⟩ := select_spec hsel
          exact tryValues_sound hvn ihf _ v a doms _ _ _ hnd hkeys hvv hva
            ht r hr

/-- C1: confirmed.  If `solve` returns a non-`None` assignment, that
assignment is complete — it assigns a word to every crossword variable —
and the Consistency Checker accepts it: `consistent` returns `True`
(pairwise-distinct words of the right lengths agreeing at every
overlap, by `consistent_iff_spec`). -/
theorem solve_sound (c : Crossword) (fuel : Nat) (a : Assignment) (k : Nat)
    (hwf : WellFormed c)
    (h : solve c fuel = some (Res.ok (some a, k))) :
    assignment_complete c a = true ∧ consistent c a = true := by
  unfold solve at h
  split at h
  · cases h
  · cases h
  · rename_i b doms2 hac
    split at h
    · cases h
    · cases h
    · rename_i bt hbt
      simp only [Option.some.injEq, Res.ok.injEq, Prod.mk.injEq] at h
      exact backtrack_sound hwf.1 fuel doms2 [] bt (by simp) (by simp)
        (consistent_nil c) hbt a h.1

/-- One-variable crossword whose vocabulary holds one fitting word. -/
def XW : Variable := ⟨0, 0, false, 3⟩

/-- Solvable one-variable instance used by the soundness witness. -/
def cW : Crossword where
  vars := [XW]
  words := [chars "CAT", chars "AB"]
  overlaps := fun _ _ => none

/-- Witness for `solve_sound`: `solve` on `cW` returns the assignment
`XW ↦ "CAT"`, which the theorem certifies complete and consistent. -/
theorem solve_sound_witness :
    solve cW 9 = some (Res.ok (some [(XW, chars "CAT")], 2)) ∧
    assignment_complete cW [(XW, chars "CAT")] = true ∧
    consistent cW [(XW, chars "CAT")] = true :=
  ⟨rfl, solve_sound cW 9 [(XW, chars "CAT")] 2 ⟨by decide, by decide⟩ rfl⟩

/-! ### C3 (amended) -/

lemma length_lt_of_unassigned {c : Crossword} {a : Assignment}
    {v0 : Variable} (hvn : c.vars.Nodup)
    (hnd : (a.map (fun p => p.1)).Nodup)
    (hkeys : ∀ p ∈ a, p.1 ∈ c.vars) (hv0 : v0 ∈ c.vars)
    (ha : alookup a v0 = none) : a.length < c.vars.length := by
  have hsub : (a.map (fun p => p.1)).toFinset ⊆ c.vars.toFinset := by
    intro x hx
    rw [List.mem_toFinset] at hx ⊢
    obtain ⟨p, hp, rfl⟩ := List.mem_map.mp hx
    exact hkeys p hp
  have hss : (a.map (fun p => p.1)).toFinset ⊂ c.vars.toFinset := by
    rw [Finset.ssubset_def]
    refine ⟨hsub, fun hsup => ?_⟩
    have hv0k : v0 ∈ (a.map (fun p => p.1)).toFinset :=
      hsup (List.mem_toFinset.mpr hv0)
    rw [List.mem_toFinset] at hv0k
    exact (alookup_eq_none_iff.mp ha) hv0k
  have hcard := Finset.card_lt_card hss
  rwa [List.toFinset_card_of_nodup hnd, List.toFinset_card_of_nodup hvn,
    List.length_map] at hcard

lemma backtrack_calls_pos {c : Crossword} {fuel : Nat} {doms : Domains}
    {a : Assignment} {bt : BT}
    (h : backtrack c fuel doms a = some (Res.ok bt)) : 1 ≤ bt.calls := by
  cases fuel with
  | zero => cases h
  | succ fuel =>
    simp only [backtrack] at h
    split at h
    · cases h
      exact Nat.le_refl 1
    · split at h
      · cases h
      · split at h
        · cases h
        · cases h
        · cases h
          exact Nat.le_add_right 1 _

lemma backtrack_step {c : Crossword} {fuel : Nat} {doms : Domains}
    {a : Assignment} (hlen : ¬ a.length = c.vars.length) {v : Variable}
    (hsel : select_unassigned_variable c doms a = some v) :
    backtrack c (fuel + 1) doms a =
      match tryValues c (backtrack c fuel) v a (doms v) doms with
      | none => none
      | some Res.exn => some Res.exn
      | some (Res.ok (res, doms1, subcalls)) =>
        some (Res.ok ⟨res, doms1, a, 1 + subcalls⟩) := by
  simp only [backtrack]
  rw [if_neg hlen, hsel]

lemma tryValues_all_none {c : Crossword} {fuel : Nat} {v0 : Variable}
    (IH : ∀ doms a, doms v0 = [] → (a.map (fun p => p.1)).Nodup →
      (∀ p ∈ a, p.1 ∈ c.vars) → alookup a v0 = none →
      c.vars.length - a.length < fuel →
      ∃ bt, backtrack c fuel doms a = some (Res.ok bt) ∧ bt.res = none)
    {v : Variable} {a : Assignment}
    (hv : v ∈ c.vars) (hvne : v ≠ v0)
    (hnd : (a.map (fun p => p.1)).Nodup)
    (hkeys : ∀ p ∈ a, p.1 ∈ c.vars)
    (ha : alookup a v = none) (hav0 : alookup a v0 = none)
    (hfuel : c.vars.length - (a.length + 1) < fuel) :
    ∀ (values : List Word) (doms : Domains), doms v0 = [] →
      ∃ k, tryValues c (backtrack c fuel) v a values doms =
        some (Res.ok (none, doms, k)) := by
  intro values
  induction values with
  | nil => intro doms h0; exact ⟨0, rfl⟩
  | cons w ws ih =>
    intro doms h0
    by_cases hcons : consistent c (a ++ [(v, w)]) = true
    · obtain ⟨bt, hb, hbres⟩ := IH doms (a ++ [(v, w)]) h0
        (keys_append_nodup hnd ha) (mem_append_pair hkeys hv)
        (by rw [alookup_append_ne (Ne.symm hvne)]; exact hav0)
        (by simpa [List.length_append] using hfuel)
      have hbd : bt.doms = doms := backtrack_doms_eq hb
      obtain ⟨k, hk⟩ := ih doms h0
      refine ⟨bt.calls + k, ?_⟩
      simp only [tryValues, hcons, if_true, hb, hbres, hbd, hk]
    · obtain ⟨k, hk⟩ := ih doms h0
      refine ⟨k, ?_⟩
      simp only [tryValues]
      rw [if_neg hcons]
      exact hk

lemma backtrack_none_of_empty {c : Crossword} (hvn : c.vars.Nodup)
    {v0 : Variable} (hv0 : v0 ∈ c.vars) :
    ∀ (fuel : Nat) (doms : Domains) (a : Assignment),
      doms v0 = [] → (a.map (fun p => p.1)).Nodup →
      (∀ p ∈ a, p.1 ∈ c.vars) → alookup a v0 = none →
      c.vars.length - a.length < fuel →
      ∃ bt, backtrack c fuel doms a = some (Res.ok bt) ∧ bt.res = none := by
  intro fuel
  induction fuel with
  | zero =>
    intro doms a h0 hnd hkeys ha hf
    omega
  | succ fuel ihf =>
    intro doms a h0 hnd hkeys ha hf
    have hlt : a.length < c.vars.length :=
      length_lt_of_unassigned hvn hnd hkeys hv0 ha
    have hlen : ¬ a.length = c.vars.length := by omega
    obtain ⟨v, hsel⟩ := select_isSome doms hv0 ha
    obtain ⟨hvv, hva⟩ := select_spec hsel
    by_cases hvv0 : v = v0
    · subst hvv0
      refine ⟨⟨none, doms, a, 1 + 0⟩, ?_, rfl⟩
      rw [backtrack_step hlen hsel, h0]
      rfl
    · obtain ⟨k, hk⟩ := tryValues_all_none
        (fun doms a h0 hnd hkeys ha hf => ihf doms a h0 hnd hkeys ha hf)
        hvv hvv0 hnd hkeys hva ha (by omega) (doms v) doms h0
      refine ⟨⟨none, doms, a, 1 + k⟩, ?_, rfl⟩
      rw [backtrack_step hlen hsel, hk]

/-- C3 (amended): when propagation leaves some variable's domain empty,
`solve` does return `None` — but not by short-circuiting: the code
discards `ac3`'s Boolean result and still invokes the backtracking
search (at least one `backtrack` call occurs), which then exhausts all
branches and reports `None` itself. -/
theorem solve_none_of_empty_domain (c : Crossword) (fuel : Nat) (b : Bool)
    (doms2 : Domains) (v0 : Variable) (hvn : c.vars.Nodup)
    (hac : ac3 c fuel (initialArcs c)
      (enforce_node_consistency c (initialDomains c)) =
      some (Res.ok (b, doms2)))
    (hv0 : v0 ∈ c.vars) (hempty : doms2 v0 = [])
    (hfuel : c.vars.length < fuel) :
    ∃ k, solve c fuel = some (Res.ok (none, k)) ∧ 1 ≤ k := by
  obtain ⟨bt, hbt, hres⟩ := backtrack_none_of_empty hvn hv0 fuel doms2 []
    hempty (by simp) (by simp) rfl (by simpa using hfuel)
  refine ⟨bt.calls, ?_, backtrack_calls_pos hbt⟩
  simp only [solve, hac, hbt, hres]

/-- Witness for `solve_none_of_empty_domain` on `cc7`: node consistency
empties the only domain, `ac3` still reports success, and `solve` returns
`None` after running the search. -/
theorem solve_none_of_empty_domain_witness :
    enforce_node_consistency cc7 (initialDomains cc7) V7 = [] ∧
    ∃ k, solve cc7 9 = some (Res.ok (none, k)) ∧ 1 ≤ k :=
  ⟨rfl, solve_none_of_empty_domain cc7 9 true
    (enforce_node_consistency cc7 (initialDomains cc7)) V7 (by decide) rfl
    (by decide) rfl (by decide)⟩

/-! ### C4 (amended) -/

/-- C4 (amended): `backtrack` tries the selected variable's candidate
words in the order in which they sit in the variable's stored domain —
`order_domain_values` is implemented but never consulted by `backtrack`.
Concretely, whenever the first stored word passes the consistency check
and its recursive call returns a solution, `backtrack` returns that
solution immediately, whatever word the least-constraining-value
ordering would have put first. -/
theorem backtrack_first_domain_value (c : Crossword) (fuel : Nat)
    (doms : Domains) (a : Assignment) (v : Variable) (w : Word)
    (ws : List Word) (bt : BT) (r : Assignment)
    (hlen : ¬ a.length = c.vars.length)
    (hsel : select_unassigned_variable c doms a = some v)
    (hdom : doms v = w :: ws)
    (hcons : consistent c (a ++ [(v, w)]) = true)
    (hrec : backtrack c fuel doms (a ++ [(v, w)]) = some (Res.ok bt))
    (hres : bt.res = some r) :
    backtrack c (fuel + 1) doms a =
      some (Res.ok ⟨some r, bt.doms, a, 1 + bt.calls⟩) := by
  rw [backtrack_step hlen hsel, hdom]
  simp only [tryValues, hcons, if_true, hrec, hres]

/-- Witness for `backtrack_first_domain_value` at `cc4`: the first stored
word `"CAT"` of `X4` leads to a solution, so the search returns it without
consulting the LCV order (which starts with `"COT"`). -/
theorem backtrack_first_domain_value_witness :
    backtrack cc4 (8 + 1) d4 [] =
      some (Res.ok ⟨some [(X4, chars "CAT"), (Y4, chars "ARTS")], d4, [],
        1 + 2⟩) :=
  backtrack_first_domain_value cc4 8 d4 [] X4 (chars "CAT") [chars "COT"]
    ⟨some [(X4, chars "CAT"), (Y4, chars "ARTS")], d4, [(X4, chars "CAT")], 2⟩
    [(X4, chars "CAT"), (Y4, chars "ARTS")]
    (by decide) rfl rfl (by decide) rfl rfl

end Cw
